import Mathlib

/-!
Verification of the segment-timeline engine of the ai-video-reel repository.

Python strings are modeled as `List Char`; every Python string operation used by
the embedded code (`strip`, `upper`, `split`, `startswith`, `splitlines`, …) is
given a structurally recursive Lean counterpart so that all definitions evaluate
inside the kernel.  Clip and timeline durations are modeled as rationals
(MoviePy stores the duration passed to `subclipped` verbatim, so exact rational
arithmetic is the faithful abstraction of its duration bookkeeping); script
segment durations are natural numbers, as in the source they come from a
`\d+` regex match.
-/

namespace VideoReel

/-- The newline character, written via its code point. -/
def nlChar : Char := Char.ofNat 10

/-- The space character, written via its code point. -/
def spChar : Char := Char.ofNat 32

/-- Python `str.strip()` on a list of characters: drop whitespace from both ends. -/
def trimChars (l : List Char) : List Char :=
  ((l.dropWhile Char.isWhitespace).reverse.dropWhile Char.isWhitespace).reverse

/-- Python `str.upper()` (ASCII case mapping, as used on the ASCII keywords here). -/
def upperChars (l : List Char) : List Char :=
  l.map Char.toUpper

/-- Python `stripped.upper().startswith(kw)` where `kw` is already uppercase. -/
def startsWithCI (kw : List Char) (l : List Char) : Bool :=
  kw.isPrefixOf (upperChars l)

/-- Python `s.split(":", 1)[1]`: everything after the first colon
(callers guard on a prefix check that guarantees a colon is present). -/
def afterColon (l : List Char) : List Char :=
  (l.dropWhile (fun c => !(c == ':'))).drop 1

/-- Is the character a single or double quote (code points 34 and 39, the set
the TEXT/LYRICS branches strip from both ends of the caption)? -/
def isQuoteChar (c : Char) : Bool :=
  c == Char.ofNat 34 || c == Char.ofNat 39

/-- The quote-stripping step of the TEXT/LYRICS branches: drop quote
characters from both ends. -/
def stripQuotes (l : List Char) : List Char :=
  ((l.dropWhile isQuoteChar).reverse.dropWhile isQuoteChar).reverse

/-- Helper for `splitChar`: Python `str.split(sep)` for a one-character
separator, with `acc` holding the (reversed) current piece. -/
def splitCharAux (sep : Char) : List Char → List Char → List (List Char)
  | acc, [] => [acc.reverse]
  | acc, c :: rest =>
    if c == sep then acc.reverse :: splitCharAux sep [] rest
    else splitCharAux sep (c :: acc) rest

/-- Python `s.split(sep)` for a one-character separator.  Within
`parse_script` it is applied to stripped, newline-normalized block text, where
it agrees with Python `str.splitlines()`. -/
def splitChar (sep : Char) (l : List Char) : List (List Char) :=
  splitCharAux sep [] l

/-- Helper for `splitDashes`: greedy leftmost scan for the three-character
separator `---`, as Python `str.split("---")` performs. -/
def splitDashesAux : List Char → List Char → List (List Char)
  | acc, [] => [acc.reverse]
  | acc, '-' :: '-' :: '-' :: rest2 => acc.reverse :: splitDashesAux [] rest2
  | acc, c :: rest => splitDashesAux (c :: acc) rest

/-- Python `text.split("---")`, the block delimiter split in `parse_script`. -/
def splitDashes (l : List Char) : List (List Char) :=
  splitDashesAux [] l

/-- Numeric value of a run of ASCII digits (Python `int` on a `\d+` match). -/
def digitsVal (ds : List Char) : Nat :=
  ds.foldl (fun a c => a * 10 + (c.toNat - 48)) 0

/-- Python `re.search(r"\d+", s)`: the first maximal run of digits, if any. -/
def firstInt (l : List Char) : Option Nat :=
  match l.dropWhile (fun c => !c.isDigit) with
  | [] => none
  | c :: rest => some (digitsVal ((c :: rest).takeWhile Char.isDigit))

/-- The DURATION-field handler of `parse_script`:
`duration = int(match.group()) if match else 5`. -/
def durationFromField (raw : List Char) : Nat :=
  match firstInt raw with
  | some n => n
  | none => 5

/-- One alternative of the continuation-stopping regex
`^\s*(SEGMENT|TEXT|LYRICS|DURATION)\s*:` (case-insensitive): after leading
whitespace the keyword appears, then optional whitespace, then a colon. -/
def kwMatch (kw : List Char) (l : List Char) : Bool :=
  let t := (upperChars l).dropWhile Char.isWhitespace
  kw.isPrefixOf t &&
    (((t.drop kw.length).dropWhile Char.isWhitespace).headD (Char.ofNat 0) == ':')

/-- Python `re.match(r"^\s*(SEGMENT|TEXT|LYRICS|DURATION)\s*:", line, re.I)`. -/
def isKeywordLine (l : List Char) : Bool :=
  kwMatch "SEGMENT".data l || kwMatch "TEXT".data l ||
    kwMatch "LYRICS".data l || kwMatch "DURATION".data l

/-- A script segment (src/scout.py, `@dataclass class Segment`). -/
structure Segment where
  query : List Char
  duration_seconds : Nat
  text : List Char
deriving DecidableEq, Repr

/-- The per-block mutable state of `parse_script`:
`query`, `overlay_text` and `duration` just before the `if query:` append. -/
structure BlockState where
  query : List Char
  text : List Char
  duration : Nat
deriving DecidableEq, Repr

/-- One step of the main dispatch of `parse_script` on a single line, in normal
mode.  Returns the updated state and whether the parser enters the multi-line
caption-continuation mode (the inner `while` loop of the TEXT/LYRICS branches).
-/
def stepLine (line : List Char) (st : BlockState) : BlockState × Bool :=
  let stripped := trimChars line
  if startsWithCI "SEGMENT:".data stripped then
    ({ st with query := trimChars (afterColon stripped) }, false)
  else if startsWithCI "TEXT:".data stripped then
    ({ st with text := stripQuotes (trimChars (afterColon stripped)) }, true)
  else if startsWithCI "LYRICS:".data stripped then
    ({ st with text := stripQuotes (trimChars (afterColon stripped)) }, true)
  else if startsWithCI "DURATION:".data stripped then
    ({ st with duration := durationFromField (trimChars (afterColon stripped)) }, false)
  else (st, false)

/-- The per-block `while i < len(lines)` loop of `parse_script`.  The `Bool`
flag records whether the loop is inside the caption-continuation inner loop:
there, a line matching the keyword regex ends the continuation (the
accumulated caption is stripped) and is then dispatched normally, and any
other line is appended to the caption as `" " + line.strip()`. -/
def processLines : List (List Char) → Bool → BlockState → BlockState
  | [], inCont, st => if inCont then { st with text := trimChars st.text } else st
  | line :: rest, false, st =>
    let s := stepLine line st
    processLines rest s.2 s.1
  | line :: rest, true, st =>
    if isKeywordLine line then
      let s := stepLine line { st with text := trimChars st.text }
      processLines rest s.2 s.1
    else
      processLines rest true { st with text := st.text ++ spChar :: trimChars line }

/-- The blocks of a script document: `text.strip().split("---")`. -/
def script_blocks (text : String) : List (List Char) :=
  splitDashes (trimChars text.data)

/-- The lines of a (stripped) block: `block.splitlines()` (on stripped text this
coincides with splitting on the newline character). -/
def block_lines (b : List Char) : List (List Char) :=
  splitChar nlChar b

/-- The final visual-query field of a block after running the per-block loop
with initial state `query = ""`, `overlay_text = ""`, `duration = 5`. -/
def blockQuery (block : List Char) : List Char :=
  (processLines (block_lines (trimChars block)) false ⟨[], [], 5⟩).query

/-- One block of `parse_script`: skip blank blocks, run the line loop, and
keep a `Segment` only when the visual-query field is non-empty. -/
def parseBlock (block : List Char) : Option Segment :=
  let b := trimChars block
  if b.isEmpty then none
  else
    let st := processLines (block_lines b) false ⟨[], [], 5⟩
    if st.query.isEmpty then none
    else some ⟨st.query, st.duration, st.text⟩

/-- `parse_script` (src/scout.py): blocks in document order, one `Segment` per
block with a non-empty `SEGMENT:` field. -/
def parse_script (text : String) : List Segment :=
  (script_blocks text).filterMap parseBlock

/-- The value assigned by the DURATION branch when it fires on `line`
(`none` when the branch does not fire on that line). -/
def durationLineValue (line : List Char) : Option Nat :=
  let stripped := trimChars line
  if startsWithCI "DURATION:".data stripped then
    some (durationFromField (trimChars (afterColon stripped)))
  else none

/-- The DURATION field of this line (if it is one) parses to a positive value. -/
def durOk (line : List Char) : Bool :=
  match durationLineValue line with
  | some v => decide (0 < v)
  | none => true

/-! ## Director (src/director.py)

`director` is embedded as a function from the parsed segments, the native
durations of the discovered clips (in discovery order), the `single_clip` flag
and the optional `target_duration` to the list of slice durations of the
assembled timeline (an `Except` models the `ValueError`s it raises).  Visual
normalization (`_resize_to_fill`) and encoding do not change durations and are
elided; `clip.subclipped(0, d)` yields a clip of duration `d` (for
`0 ≤ d ≤` the clip duration it trims, and the tiling branch below is
responsible for making the concatenation long enough). -/

/-- Number of copies concatenated in single-clip mode:
`n = int(total_duration / normalized.duration) + 1` when the trimmed clip is
shorter than the target, and `1` (no concatenation) otherwise.  `Int.floor`
agrees with Python `int()` on the nonnegative quotients that reach this code.
-/
def single_clip_tiles (target native : ℚ) : ℤ :=
  let d := min target native
  if d < target then ⌊target / d⌋ + 1 else 1

/-- Duration of the final clip in single-clip mode: the clip is trimmed to
`min(total_duration, clip.duration)`, tiled `single_clip_tiles` times if still
short, and the concatenation is trimmed by `subclipped(0, total_duration)`. -/
def single_clip_duration (target native : ℚ) : ℚ :=
  let d := min target native
  min target ((single_clip_tiles target native : ℚ) * d)

/-- `director` (src/director.py): produces the list of slice durations of the
output timeline, or the error message of the `ValueError` it raises. -/
def director (segments : List Segment) (clips : List ℚ) (single_clip : Bool)
    (target_duration : Option ℚ) : Except String (List ℚ) :=
  let total : ℚ :=
    match target_duration with
    | some t => t
    | none => (segments.map (fun s => (s.duration_seconds : ℚ))).sum
  if single_clip then
    match clips with
    | [] => Except.error "No clips found. Run Scout with --single-clip first."
    | native :: _ => Except.ok [single_clip_duration total native]
  else
    if clips.length < segments.length then
      Except.error ("Not enough clips: found " ++ toString clips.length ++
        ", need " ++ toString segments.length ++
        ". Run Scout first: python -m src.scout <script>")
    else
      Except.ok (List.zipWith (fun s a => min ((s.duration_seconds : ℚ)) a)
        segments (clips.take segments.length))

/-! ## Polish (src/polish.py) -/

/-- Helper for `pyWords`: Python `str.split()` (no separator), accumulating the
current word in reverse. -/
def pyWordsAux : List Char → List Char → List (List Char)
  | acc, [] => if acc.isEmpty then [] else [acc.reverse]
  | acc, c :: rest =>
    if c.isWhitespace then
      if acc.isEmpty then pyWordsAux [] rest
      else acc.reverse :: pyWordsAux [] rest
    else pyWordsAux (c :: acc) rest

/-- Python `text.split()`: the maximal whitespace-free runs of the text. -/
def pyWords (l : List Char) : List (List Char) :=
  pyWordsAux [] l

/-- One step of the word-wrapping fold of `_wrap_text_at_words`: the state is
`(lines, current, current_len)` exactly as in the Python loop body (with each
line kept as its list of words; Python joins `current` with spaces only when
flushing, and joins `lines` with newlines only on return). -/
def wrapStep (max_chars : Nat)
    (st : List (List (List Char)) × List (List Char) × Nat) (w : List Char) :
    List (List (List Char)) × List (List Char) × Nat :=
  let lines := st.1
  let current := st.2.1
  let current_len := st.2.2
  if current_len + w.length + (if current.isEmpty then 0 else 1) ≤ max_chars then
    (lines, current ++ [w], current_len + w.length + (if current_len == 0 then 0 else 1))
  else
    ((if current.isEmpty then lines else lines ++ [current]), [w], w.length)

/-- The word groups (lines) produced by `_wrap_text_at_words`, including the
final `if current: lines.append(" ".join(current))` flush. -/
def wrapGroups (text : List Char) (max_chars : Nat) : List (List (List Char)) :=
  let st := (pyWords text).foldl (wrapStep max_chars) ([], [], 0)
  if st.2.1.isEmpty then st.1 else st.1 ++ [st.2.1]

/-- `_wrap_text_at_words` (src/polish.py): `"\n".join(lines)` where each line
is `" ".join(current)` for a flushed word group. -/
def wrap_text_at_words (text : List Char) (max_chars : Nat) : List Char :=
  [nlChar].intercalate ((wrapGroups text max_chars).map
    (fun g => [spChar].intercalate g))

/-- The lines rendered for one segment in `add_text_overlay`:
`_wrap_text_at_words(seg.text, max_chars=22).split("\n")`, keeping only lines
with `line.strip()` non-empty. -/
def segLines (text : List Char) : List (List Char) :=
  ((wrap_text_at_words text 22).splitOn nlChar).filter
    (fun l => !(trimChars l).isEmpty)

/-- The timing-relevant data of one rendered `TextClip` in `add_text_overlay`:
its start (`with_start(t)`), its duration (`duration=seg.duration_seconds`) and
its text line.  Fonts, pixel positions and layering are elided: the claims
under verification are about timing only. -/
structure TextClipSpec where
  start : Nat
  duration : Nat
  line : List Char
deriving DecidableEq, Repr

/-- The cursor loop of `add_text_overlay` (src/polish.py): a segment with empty
caption only advances the cursor `t`; otherwise each non-blank wrapped line
becomes a clip starting at `t` for the segment's own duration.  The cursor is
a float in the source, but it only ever accumulates the integer
`seg.duration_seconds`, so `Nat` arithmetic is exact. -/
def add_text_overlay : List Segment → Nat → List TextClipSpec
  | [], _ => []
  | seg :: rest, t =>
    if seg.text.isEmpty then add_text_overlay rest (t + seg.duration_seconds)
    else
      (segLines seg.text).map (fun l => ⟨t, seg.duration_seconds, l⟩) ++
        add_text_overlay rest (t + seg.duration_seconds)

/-- Sum of the durations of the first `i` segments: the cursor value at which
segment `i` starts. -/
def prefixDur (segs : List Segment) (i : Nat) : Nat :=
  ((segs.take i).map Segment.duration_seconds).sum

/-- The draft-existence guard at the top of `polish` (src/polish.py):
`raise FileNotFoundError(f"Draft video not found: {draft_path}")` when the
draft artifact does not exist.  Filesystem state enters as a boolean. -/
def polish_check (draft_exists : Bool) (draft_path : String) : Except String Unit :=
  if draft_exists then Except.ok ()
  else Except.error ("Draft video not found: " ++ draft_path)

/-! ## Iterate (src/iterate.py) -/

/-- The fields of the rating report consulted by `iterate`:
`rating["overall_score"]`, `rating["pass"]`, `rating.get("issues")`. -/
structure Rating where
  overall_score : ℤ
  pass : Bool
  issues : List String
deriving DecidableEq, Repr

/-- The early-exit test of `iterate`:
`rating["pass"] and not rating.get("issues") and rating["overall_score"] >= min_score`. -/
def ratingSuccess (min_score : ℤ) (r : Rating) : Bool :=
  r.pass && r.issues.isEmpty && decide (min_score ≤ r.overall_score)

/-- The `for i in range(max_iterations)` loop of `iterate`.  `reports i` is the
report produced by the polish-then-rate body in iteration `i` (the two calls
are external effects; only the sequence of reports they yield matters to the
control flow).  Arguments: next iteration index, remaining budget, last report.
Returns the number of executed loop bodies together with the returned report.
-/
def iterateAux (min_score : ℤ) (reports : Nat → Rating) :
    Nat → Nat → Option Rating → Nat × Option Rating
  | i, 0, last => (i, last)
  | i, fuel + 1, _last =>
    let r := reports i
    if ratingSuccess min_score r then (i + 1, some r)
    else iterateAux min_score reports (i + 1) fuel (some r)

/-- `iterate` (src/iterate.py): `rating = None`, run the loop, return the last
rating (`Int.toNat` mirrors `range(n)` being empty for `n ≤ 0`).  The first
component instruments the number of polish-then-rate executions. -/
def iterate (max_iterations : ℤ) (min_score : ℤ) (reports : Nat → Rating) :
    Nat × Option Rating :=
  iterateAux min_score reports 0 max_iterations.toNat none

/-! ## Safety rater (src/safety_rate.py) -/

/-- The combined report of `safety_check`: the fields the hard-flag override
touches. -/
structure SafetyResult where
  safe : Bool
  verdict : String
  flags : List String
deriving DecidableEq, Repr

/-- The aggregate of `_run_text_moderation`: whether the moderation API flagged
the text, and the hard-flagged categories. -/
structure ModerationResult where
  flagged : Bool
  hard_flags : List String
deriving DecidableEq, Repr

/-- The hard-flag override of `safety_check` (src/safety_rate.py lines
244-249): when `moderation["hard_flags"]` is non-empty, append the flags and
force `verdict = "rejected"`, `safe = False`; otherwise the vision result is
kept as is. -/
def safety_check_merge (result : SafetyResult) (moderation : ModerationResult) :
    SafetyResult :=
  if moderation.hard_flags.isEmpty then result
  else
    { safe := false
      verdict := "rejected"
      flags := result.flags ++
        moderation.hard_flags.map (fun f => "OpenAI Moderation hard flag: " ++ f) }

/-- A word as produced by Python `str.split()`: non-empty and whitespace-free.
Specification predicate used by the overlay-timing lemmas. -/
def goodWord (w : List Char) : Prop :=
  w ≠ [] ∧ ∀ c ∈ w, c.isWhitespace = false

/-- A flushed line group of the wrapper: non-empty, made of words. -/
def goodGroup (g : List (List Char)) : Prop :=
  g ≠ [] ∧ ∀ w ∈ g, goodWord w

/-! ## Theorems -/

/-- A block yields a segment exactly when its parsed visual-query field is
non-empty. -/
theorem parseBlock_isSome (b : List Char) :
    (parseBlock b).isSome = !(blockQuery b).isEmpty := by
  unfold parseBlock blockQuery
  cases h : (trimChars b).isEmpty
  · simp only [h, Bool.false_eq_true, if_false]
    cases hq : (processLines (block_lines (trimChars b)) false ⟨[], [], 5⟩).query.isEmpty <;>
      simp [hq]
  · have hb : trimChars b = [] := List.isEmpty_iff.mp h
    simp only [h, if_true]
    rw [hb]
    rfl

/-- Segment count equals the count of blocks with a non-empty query field. -/
theorem length_filterMap_parseBlock (bs : List (List Char)) :
    (bs.filterMap parseBlock).length =
      (bs.filter (fun b => !(blockQuery b).isEmpty)).length := by
  induction bs with
  | nil => rfl
  | cons b rest ih =>
    rw [List.filterMap_cons, List.filter_cons, ← parseBlock_isSome]
    cases h : parseBlock b <;> simp [h, ih]

/-- C5: `parse_script` returns exactly one Segment per block whose parsed
visual-query field is non-empty, in block order (the segment list is the
in-order projection of exactly those blocks); blocks lacking such a field are
silently dropped.  The scenario: 3 blocks, two with SEGMENT/DURATION 5 and
one without a SEGMENT line, parse to exactly those 2 segments of duration 5.
-/
theorem C5_block_parsing :
    (∀ text : String, (parse_script text).length =
      ((script_blocks text).filter (fun b => !(blockQuery b).isEmpty)).length) ∧
    parse_script "SEGMENT: mountain lake\nDURATION: 5\n---\nSEGMENT: city street\nDURATION: 5\n---\nTEXT: closing card only" =
      [⟨"mountain lake".data, 5, []⟩, ⟨"city street".data, 5, []⟩] :=
  ⟨fun _ => length_filterMap_parseBlock _, by decide⟩

/-- A dispatch step either keeps the duration or installs the value of the
DURATION field it fired on. -/
theorem stepLine_duration (line : List Char) (st : BlockState) :
    (stepLine line st).1.duration = st.duration ∨
      durationLineValue line = some ((stepLine line st).1.duration) := by
  simp only [stepLine, durationLineValue]
  split_ifs <;> simp

/-- The block loop preserves positivity of the duration as long as every
DURATION field in the block parses to a positive value. -/
theorem processLines_duration_pos :
    ∀ (lines : List (List Char)) (mode : Bool) (st : BlockState),
      0 < st.duration → (∀ l ∈ lines, durOk l = true) →
      0 < (processLines lines mode st).duration := by
  intro lines
  induction lines with
  | nil =>
    intro mode st h _
    cases mode <;> simpa [processLines]
  | cons line rest ih =>
    intro mode st hpos hok
    have hnext : ∀ st2 : BlockState, st2.duration = st.duration ∨
        durationLineValue line = some st2.duration → 0 < st2.duration := by
      intro st2 h2
      rcases h2 with h2 | h2
      · rw [h2]; exact hpos
      · have hok0 := hok line (List.mem_cons_self _ _)
        unfold durOk at hok0
        rw [h2] at hok0
        simpa using hok0
    have hrest : ∀ l ∈ rest, durOk l = true :=
      fun l hl => hok l (List.mem_cons_of_mem _ hl)
    cases mode
    · rw [processLines]
      exact ih _ _ (hnext _ (by simpa using stepLine_duration line st)) hrest
    · rw [processLines]
      by_cases hk : isKeywordLine line = true
      · simp only [hk, if_true]
        exact ih _ _ (hnext _ (by simpa using stepLine_duration line { st with text := trimChars st.text })) hrest
      · simp only [Bool.not_eq_true] at hk
        simp only [hk, Bool.false_eq_true, if_false]
        exact ih _ _ hpos hrest

/-- C8 (amended): every Segment produced by `parse_script` has a positive
`duration_seconds` provided every DURATION field of the script parses to a
positive value (the default is 5); an explicit `DURATION: 0` field is the
only way to produce a non-positive duration. -/
theorem C8_amended_positive_duration (text : String)
    (h : ∀ b ∈ script_blocks text, ∀ l ∈ block_lines (trimChars b), durOk l = true) :
    ∀ s ∈ parse_script text, 0 < s.duration_seconds := by
  intro s hs
  rcases List.mem_filterMap.mp hs with ⟨b, hb, hpb⟩
  unfold parseBlock at hpb
  by_cases hempty : (trimChars b).isEmpty = true
  · simp [hempty] at hpb
  · simp only [hempty, Bool.false_eq_true, if_false] at hpb
    by_cases hq : (processLines (block_lines (trimChars b)) false ⟨[], [], 5⟩).query.isEmpty = true
    · simp [hq] at hpb
    · simp only [hq, Bool.false_eq_true, if_false, Option.some_inj] at hpb
      have := processLines_duration_pos (block_lines (trimChars b)) false ⟨[], [], 5⟩
        (by norm_num) (h b hb)
      rw [← hpb]
      exact this

/-- Counterexample to C8 as stated: a script whose DURATION field is 0
produces a Segment whose `duration_seconds` is 0, which is not positive. -/
theorem C8_counterexample :
    parse_script "SEGMENT: x\nDURATION: 0" = [⟨"x".data, 0, []⟩] ∧
    ¬ (∀ s ∈ parse_script "SEGMENT: x\nDURATION: 0", 0 < s.duration_seconds) := by
  exact ⟨by decide, by decide⟩

/-- Witness for the amended C8 on a script with `DURATION: 7`. -/
theorem C8_witness :
    (∀ b ∈ script_blocks "SEGMENT: x\nDURATION: 7",
      ∀ l ∈ block_lines (trimChars b), durOk l = true) ∧
    ∀ s ∈ parse_script "SEGMENT: x\nDURATION: 7", 0 < s.duration_seconds :=
  ⟨by decide, C8_amended_positive_duration _ (by decide)⟩

/-- `intercalate` on a single chunk. -/
theorem intercalate_single_eq (sep : Char) (w : List Char) :
    [sep].intercalate [w] = w := by
  simp [List.intercalate]

/-- `intercalate` equation for two or more chunks. -/
theorem intercalate_cons_cons (sep : Char) (w w2 : List Char) (g2 : List (List Char)) :
    [sep].intercalate (w :: w2 :: g2) = w ++ sep :: [sep].intercalate (w2 :: g2) := by
  simp [List.intercalate]

/-- A character of an intercalation is the separator or from some chunk. -/
theorem mem_intercalate_sep (sep : Char) :
    ∀ (g : List (List Char)) (c : Char),
      c ∈ [sep].intercalate g → c = sep ∨ ∃ w ∈ g, c ∈ w := by
  intro g
  induction g with
  | nil => intro c hc; simp [List.intercalate] at hc
  | cons w g0 ih =>
    intro c hc
    cases g0 with
    | nil =>
      rw [intercalate_single_eq] at hc
      exact Or.inr ⟨w, by simp, hc⟩
    | cons w1 g1 =>
      rw [intercalate_cons_cons] at hc
      rcases List.mem_append.mp hc with h | h
      · exact Or.inr ⟨w, by simp, h⟩
      · rcases List.mem_cons.mp h with h | h
        · exact Or.inl h
        · rcases ih c h with h | ⟨w3, hw3, hc3⟩
          · exact Or.inl h
          · exact Or.inr ⟨w3, List.mem_cons_of_mem _ hw3, hc3⟩

/-- Chunk characters survive intercalation. -/
theorem mem_of_mem_intercalate_word (sep : Char) :
    ∀ (g : List (List Char)) (w : List Char) (c : Char), w ∈ g → c ∈ w →
      c ∈ [sep].intercalate g := by
  intro g
  induction g with
  | nil => intro w c h _; simp at h
  | cons w0 g0 ih =>
    intro w c hw hc
    cases g0 with
    | nil =>
      rw [List.mem_singleton] at hw
      subst hw
      rw [intercalate_single_eq]
      exact hc
    | cons w1 g1 =>
      rw [intercalate_cons_cons]
      rcases List.mem_cons.mp hw with rfl | hmem
      · exact List.mem_append_left _ hc
      · exact List.mem_append_right _ (List.mem_cons_of_mem _ (ih w c hmem hc))

/-- Words produced by `str.split()` are non-empty and whitespace-free. -/
theorem pyWordsAux_good :
    ∀ (l acc : List Char), (∀ c ∈ acc, c.isWhitespace = false) →
      ∀ w ∈ pyWordsAux acc l, goodWord w := by
  intro l
  induction l with
  | nil =>
    intro acc hacc w hw
    by_cases h : acc.isEmpty = true
    · simp [pyWordsAux, h] at hw
    · simp only [pyWordsAux, h, Bool.false_eq_true, if_false, List.mem_singleton] at hw
      subst hw
      refine ⟨?_, ?_⟩
      · simp only [ne_eq, List.reverse_eq_nil_iff]
        simpa [List.isEmpty_iff] using h
      · intro c hc
        exact hacc c (List.mem_reverse.mp hc)
  | cons c0 rest ih =>
    intro acc hacc w hw
    rw [pyWordsAux] at hw
    by_cases hws : c0.isWhitespace = true
    · rw [if_pos hws] at hw
      by_cases hacc0 : acc.isEmpty = true
      · rw [if_pos hacc0] at hw
        exact ih [] (by simp) w hw
      · rw [if_neg hacc0] at hw
        rcases List.mem_cons.mp hw with rfl | h
        · refine ⟨?_, ?_⟩
          · simp only [ne_eq, List.reverse_eq_nil_iff]
            simpa [List.isEmpty_iff] using hacc0
          · intro c hc
            exact hacc c (List.mem_reverse.mp hc)
        · exact ih [] (by simp) w h
    · rw [if_neg hws] at hw
      apply ih (c0 :: acc) ?_ w hw
      intro c hc
      rcases List.mem_cons.mp hc with rfl | h
      · simpa using hws
      · exact hacc c h

/-- Text with a non-whitespace character splits into at least one word. -/
theorem pyWordsAux_ne_nil :
    ∀ (l acc : List Char), (∃ c ∈ l, c.isWhitespace = false) ∨ acc ≠ [] →
      pyWordsAux acc l ≠ [] := by
  intro l
  induction l with
  | nil =>
    intro acc h
    rcases h with ⟨c, hc, _⟩ | h
    · simp at hc
    · have : acc.isEmpty = false := by simpa [List.isEmpty_eq_false] using h
      simp [pyWordsAux, this]
  | cons c0 rest ih =>
    intro acc h
    rw [pyWordsAux]
    by_cases hws : c0.isWhitespace = true
    · rw [if_pos hws]
      by_cases hacc0 : acc.isEmpty = true
      · rw [if_pos hacc0]
        apply ih [] (Or.inl ?_)
        rcases h with ⟨c, hc, hcws⟩ | h
        · rcases List.mem_cons.mp hc with rfl | hmem
          · rw [hws] at hcws; cases hcws
          · exact ⟨c, hmem, hcws⟩
        · rw [List.isEmpty_iff] at hacc0
          exact absurd hacc0 h
      · rw [if_neg hacc0]
        simp
    · rw [if_neg hws]
      apply ih (c0 :: acc) (Or.inr (by simp))

/-- Shape of one wrapping step: the line list either stays or flushes the
(non-empty) current group; the current group is extended or restarted. -/
theorem wrapStep_cases (mc : Nat) (st : List (List (List Char)) × List (List Char) × Nat)
    (w : List Char) :
    ((wrapStep mc st w).1 = st.1 ∨
      ((wrapStep mc st w).1 = st.1 ++ [st.2.1] ∧ st.2.1 ≠ [])) ∧
    ((wrapStep mc st w).2.1 = st.2.1 ++ [w] ∨ (wrapStep mc st w).2.1 = [w]) := by
  simp only [wrapStep]
  split_ifs with h1 h2 h3 <;> refine ⟨?_, ?_⟩ <;> simp_all [List.isEmpty_iff]

/-- One wrapping step preserves goodness of groups and of the current words. -/
theorem wrapStep_good (mc : Nat) (st : List (List (List Char)) × List (List Char) × Nat)
    (w : List Char) (h1 : ∀ g ∈ st.1, goodGroup g) (h2 : ∀ w2 ∈ st.2.1, goodWord w2)
    (hw : goodWord w) :
    (∀ g ∈ (wrapStep mc st w).1, goodGroup g) ∧
      (∀ w2 ∈ (wrapStep mc st w).2.1, goodWord w2) := by
  obtain ⟨hL, hC⟩ := wrapStep_cases mc st w
  constructor
  · rcases hL with h | ⟨h, hne⟩
    · rw [h]
      exact h1
    · rw [h]
      intro g hg
      rcases List.mem_append.mp hg with hg | hg
      · exact h1 g hg
      · rw [List.mem_singleton] at hg
        subst hg
        exact ⟨hne, h2⟩
  · rcases hC with h | h
    · rw [h]
      intro w2 hw2
      rcases List.mem_append.mp hw2 with hw2 | hw2
      · exact h2 w2 hw2
      · rw [List.mem_singleton] at hw2
        subst hw2
        exact hw
    · rw [h]
      intro w2 hw2
      rw [List.mem_singleton] at hw2
      subst hw2
      exact hw

/-- After any wrapping step the current group is non-empty. -/
theorem wrapStep_current_ne_nil (mc : Nat)
    (st : List (List (List Char)) × List (List Char) × Nat) (w : List Char) :
    (wrapStep mc st w).2.1 ≠ [] := by
  rcases (wrapStep_cases mc st w).2 with h | h <;> simp [h]

/-- The wrapping fold preserves goodness of groups and current words. -/
theorem wrapFold_good (mc : Nat) :
    ∀ (ws : List (List Char)) (st : List (List (List Char)) × List (List Char) × Nat),
      (∀ g ∈ st.1, goodGroup g) → (∀ w2 ∈ st.2.1, goodWord w2) →
      (∀ w ∈ ws, goodWord w) →
      (∀ g ∈ (ws.foldl (wrapStep mc) st).1, goodGroup g) ∧
        (∀ w2 ∈ (ws.foldl (wrapStep mc) st).2.1, goodWord w2) := by
  intro ws
  induction ws with
  | nil => intro st h1 h2 _; exact ⟨h1, h2⟩
  | cons w ws ih =>
    intro st h1 h2 hws
    rw [List.foldl_cons]
    have hstep := wrapStep_good mc st w h1 h2 (hws w (List.mem_cons_self _ _))
    exact ih _ hstep.1 hstep.2 (fun w2 hw2 => hws w2 (List.mem_cons_of_mem _ hw2))

/-- After folding at least one word the current group is non-empty. -/
theorem wrapFold_current_ne_nil (mc : Nat) :
    ∀ (ws : List (List Char)) (st : List (List (List Char)) × List (List Char) × Nat),
      ws ≠ [] → (ws.foldl (wrapStep mc) st).2.1 ≠ [] := by
  intro ws
  induction ws with
  | nil => intro st h; exact absurd rfl h
  | cons w ws ih =>
    intro st _
    rw [List.foldl_cons]
    cases ws with
    | nil =>
      rw [List.foldl_nil]
      exact wrapStep_current_ne_nil mc st w
    | cons w2 ws2 => exact ih _ (by simp)

/-- Every flushed line group is non-empty and made of good words. -/
theorem wrapGroups_good (text : List Char) (mc : Nat)
    (hw : ∀ w ∈ pyWords text, goodWord w) :
    ∀ g ∈ wrapGroups text mc, goodGroup g := by
  simp only [wrapGroups]
  have h := wrapFold_good mc (pyWords text) ([], [], 0) (by simp) (by simp) hw
  split_ifs with hcur
  · exact h.1
  · intro g hg
    rcases List.mem_append.mp hg with h2 | h2
    · exact h.1 g h2
    · rw [List.mem_singleton] at h2
      subst h2
      exact ⟨by simpa [List.isEmpty_iff] using hcur, h.2⟩

/-- A text with at least one word wraps to at least one line group. -/
theorem wrapGroups_ne_nil (text : List Char) (mc : Nat) (h : pyWords text ≠ []) :
    wrapGroups text mc ≠ [] := by
  simp only [wrapGroups]
  have hcur := wrapFold_current_ne_nil mc (pyWords text) ([], [], 0) h
  rw [if_neg (by simpa [List.isEmpty_iff] using hcur)]
  simp

/-- Dropping leading whitespace keeps a non-whitespace witness. -/
theorem dropWhile_ws_exists :
    ∀ (l : List Char), (∃ c ∈ l, c.isWhitespace = false) →
      ∃ c ∈ l.dropWhile Char.isWhitespace, c.isWhitespace = false := by
  intro l
  induction l with
  | nil => intro h; simp at h
  | cons c0 rest ih =>
    intro h
    rw [List.dropWhile_cons]
    by_cases h0 : c0.isWhitespace = true
    · rw [if_pos h0]
      apply ih
      rcases h with ⟨c, hc, hws⟩
      rcases List.mem_cons.mp hc with rfl | hmem
      · rw [h0] at hws; cases hws
      · exact ⟨c, hmem, hws⟩
    · rw [if_neg h0]
      exact h

/-- A string with a non-whitespace character has a non-empty strip. -/
theorem trimChars_ne_nil (l : List Char) (h : ∃ c ∈ l, c.isWhitespace = false) :
    trimChars l ≠ [] := by
  unfold trimChars
  have h1 := dropWhile_ws_exists l h
  have h2 : ∃ c ∈ (l.dropWhile Char.isWhitespace).reverse, c.isWhitespace = false := by
    rcases h1 with ⟨c, hc, hws⟩
    exact ⟨c, List.mem_reverse.mpr hc, hws⟩
  rcases dropWhile_ws_exists _ h2 with ⟨c, hc, _⟩
  intro heq
  rw [List.reverse_eq_nil_iff] at heq
  rw [heq] at hc
  cases hc

/-- A caption containing a non-whitespace character yields at least one
non-blank rendered line after wrapping, joining and re-splitting. -/
theorem segLines_ne_nil (text : List Char)
    (h : ∃ c ∈ text, c.isWhitespace = false) : segLines text ≠ [] := by
  have hwords : pyWords text ≠ [] := pyWordsAux_ne_nil text [] (Or.inl h)
  have hgoodw : ∀ w ∈ pyWords text, goodWord w := pyWordsAux_good text [] (by simp)
  have hg := wrapGroups_good text 22 hgoodw
  have hgne := wrapGroups_ne_nil text 22 hwords
  have hlinesne : (wrapGroups text 22).map (fun g => [spChar].intercalate g) ≠ [] := by
    simpa using hgne
  have hnl : ∀ l ∈ (wrapGroups text 22).map (fun g => [spChar].intercalate g),
      nlChar ∉ l := by
    intro l hl
    rcases List.mem_map.mp hl with ⟨g, hgmem, rfl⟩
    intro hmem
    rcases mem_intercalate_sep spChar g nlChar hmem with h1 | ⟨w, hwmem, hc⟩
    · exact absurd h1 (by decide)
    · have hws := ((hg g hgmem).2 w hwmem).2 nlChar hc
      rw [show nlChar.isWhitespace = true by decide] at hws
      cases hws
  have hsplit : (wrap_text_at_words text 22).splitOn nlChar =
      (wrapGroups text 22).map (fun g => [spChar].intercalate g) := by
    simp only [wrap_text_at_words]
    exact List.splitOn_intercalate _ nlChar hnl hlinesne
  obtain ⟨g0, hg0⟩ := List.exists_mem_of_ne_nil _ hgne
  have hgood0 := hg g0 hg0
  obtain ⟨w0, hw0⟩ := List.exists_mem_of_ne_nil _ hgood0.1
  have hgw := hgood0.2 w0 hw0
  obtain ⟨c0, hc0⟩ := List.exists_mem_of_ne_nil _ hgw.1
  have hline0 : [spChar].intercalate g0 ∈
      (wrapGroups text 22).map (fun g => [spChar].intercalate g) :=
    List.mem_map_of_mem _ hg0
  have hcline : c0 ∈ [spChar].intercalate g0 :=
    mem_of_mem_intercalate_word spChar g0 w0 c0 hw0 hc0
  have hnb : (trimChars ([spChar].intercalate g0)).isEmpty = false := by
    rw [List.isEmpty_eq_false]
    exact trimChars_ne_nil _ ⟨c0, hcline, hgw.2 c0 hc0⟩
  simp only [segLines]
  rw [hsplit]
  intro hempty
  have hmem : [spChar].intercalate g0 ∈
      ((wrapGroups text 22).map (fun g => [spChar].intercalate g)).filter
        (fun l => !(trimChars l).isEmpty) :=
    List.mem_filter.mpr ⟨hline0, by simp [hnb]⟩
  rw [hempty] at hmem
  cases hmem


/-- No segments before index 0. -/
theorem prefixDur_zero (segs : List Segment) : prefixDur segs 0 = 0 := by
  simp [prefixDur]

/-- Prefix-sum recurrence. -/
theorem prefixDur_cons_succ (seg : Segment) (rest : List Segment) (i : Nat) :
    prefixDur (seg :: rest) (i + 1) = seg.duration_seconds + prefixDur rest i := by
  simp [prefixDur]

/-- Every clip rendered after cursor `t` starts no earlier than `t`. -/
theorem add_text_overlay_start_le :
    ∀ (segs : List Segment) (t : Nat) (c : TextClipSpec),
      c ∈ add_text_overlay segs t → t ≤ c.start := by
  intro segs
  induction segs with
  | nil => intro t c hc; simp [add_text_overlay] at hc
  | cons seg rest ih =>
    intro t c hc
    rw [add_text_overlay] at hc
    by_cases he : seg.text.isEmpty = true
    · rw [if_pos he] at hc
      have := ih _ c hc
      omega
    · rw [if_neg he] at hc
      rcases List.mem_append.mp hc with h | h
      · rcases List.mem_map.mp h with ⟨l, _, rfl⟩
        simp
      · have := ih _ c h
        omega

/-- Clips of one segment share their start time. -/
theorem pairwise_start_map (t d : Nat) (ls : List (List Char)) :
    (ls.map (fun l => (⟨t, d, l⟩ : TextClipSpec))).Pairwise
      (fun a b => a.start ≤ b.start) := by
  induction ls with
  | nil => simp
  | cons l ls ih =>
    rw [List.map_cons, List.pairwise_cons]
    refine ⟨?_, ih⟩
    intro b hb
    rcases List.mem_map.mp hb with ⟨l2, _, rfl⟩
    exact le_refl t

/-- Caption start times are non-decreasing along the rendered clip list. -/
theorem add_text_overlay_pairwise :
    ∀ (segs : List Segment) (t : Nat),
      (add_text_overlay segs t).Pairwise (fun a b => a.start ≤ b.start) := by
  intro segs
  induction segs with
  | nil => intro t; simp [add_text_overlay]
  | cons seg rest ih =>
    intro t
    rw [add_text_overlay]
    by_cases he : seg.text.isEmpty = true
    · rw [if_pos he]
      exact ih _
    · rw [if_neg he]
      rw [List.pairwise_append]
      refine ⟨pairwise_start_map t seg.duration_seconds (segLines seg.text), ih _, ?_⟩
      intro a ha b hb
      rcases List.mem_map.mp ha with ⟨l, _, rfl⟩
      have := add_text_overlay_start_le rest (t + seg.duration_seconds) b hb
      simp only []
      omega

/-- Every rendered clip belongs to a segment with non-empty caption, starts at
the running sum of the prior durations and lasts the duration of that segment. -/
theorem add_text_overlay_mem :
    ∀ (segs : List Segment) (t : Nat) (c : TextClipSpec),
      c ∈ add_text_overlay segs t →
      ∃ (i : Nat) (s : Segment), segs[i]? = some s ∧ s.text ≠ [] ∧
        c.start = t + prefixDur segs i ∧ c.duration = s.duration_seconds := by
  intro segs
  induction segs with
  | nil => intro t c hc; simp [add_text_overlay] at hc
  | cons seg rest ih =>
    intro t c hc
    rw [add_text_overlay] at hc
    by_cases he : seg.text.isEmpty = true
    · rw [if_pos he] at hc
      rcases ih _ c hc with ⟨i, s, h1, h2, h3, h4⟩
      refine ⟨i + 1, s, by simpa using h1, h2, ?_, h4⟩
      rw [h3, prefixDur_cons_succ]
      omega
    · rw [if_neg he] at hc
      rcases List.mem_append.mp hc with h | h
      · rcases List.mem_map.mp h with ⟨l, hl, rfl⟩
        refine ⟨0, seg, by simp, ?_, ?_, rfl⟩
        · simpa [List.isEmpty_eq_false] using he
        · simp [prefixDur_zero]
      · rcases ih _ c h with ⟨i, s, h1, h2, h3, h4⟩
        refine ⟨i + 1, s, by simpa using h1, h2, ?_, h4⟩
        rw [h3, prefixDur_cons_succ]
        omega

/-- A segment whose caption has a non-whitespace character gets at least one
rendered clip, at the running-sum start, for its own duration. -/
theorem add_text_overlay_exists :
    ∀ (segs : List Segment) (t i : Nat) (s : Segment),
      segs[i]? = some s → (∃ ch ∈ s.text, ch.isWhitespace = false) →
      ∃ c ∈ add_text_overlay segs t,
        c.start = t + prefixDur segs i ∧ c.duration = s.duration_seconds := by
  intro segs
  induction segs with
  | nil => intro t i s h _; simp at h
  | cons seg rest ih =>
    intro t i s hs hch
    cases i with
    | zero =>
      rw [List.getElem?_cons_zero, Option.some_inj] at hs
      subst hs
      rw [add_text_overlay]
      have hne : seg.text ≠ [] := by
        rcases hch with ⟨c, hc, _⟩
        exact List.ne_nil_of_mem hc
      rw [if_neg (by simpa [List.isEmpty_eq_false] using hne)]
      obtain ⟨l0, hl0⟩ := List.exists_mem_of_ne_nil _ (segLines_ne_nil seg.text hch)
      refine ⟨⟨t, seg.duration_seconds, l0⟩, ?_, by simp [prefixDur_zero], rfl⟩
      exact List.mem_append_left _ (List.mem_map_of_mem _ hl0)
    | succ j =>
      rw [List.getElem?_cons_succ] at hs
      rw [add_text_overlay]
      by_cases he : seg.text.isEmpty = true
      · rw [if_pos he]
        rcases ih (t + seg.duration_seconds) j s hs hch with ⟨c, hc, h1, h2⟩
        refine ⟨c, hc, ?_, h2⟩
        rw [h1, prefixDur_cons_succ]
        omega
      · rw [if_neg he]
        rcases ih (t + seg.duration_seconds) j s hs hch with ⟨c, hc, h1, h2⟩
        refine ⟨c, List.mem_append_right _ hc, ?_, h2⟩
        rw [h1, prefixDur_cons_succ]
        omega

/-- C7 (amended): caption start times are non-decreasing; every rendered clip
belongs to a segment with non-empty caption, starts at the sum of the
durations of the preceding segments, and lasts exactly the duration of its own segment; a caption containing at least one non-whitespace character is
actually rendered (at that start, for that duration); an empty caption only
advances the cursor and renders nothing. -/
theorem C7_amended_overlay_timing :
    (∀ segs : List Segment,
      (add_text_overlay segs 0).Pairwise (fun a b => a.start ≤ b.start)) ∧
    (∀ (segs : List Segment) (c : TextClipSpec), c ∈ add_text_overlay segs 0 →
      ∃ (i : Nat) (s : Segment), segs[i]? = some s ∧ s.text ≠ [] ∧
        c.start = prefixDur segs i ∧ c.duration = s.duration_seconds) ∧
    (∀ (segs : List Segment) (i : Nat) (s : Segment), segs[i]? = some s →
      (∃ ch ∈ s.text, ch.isWhitespace = false) →
      ∃ c ∈ add_text_overlay segs 0,
        c.start = prefixDur segs i ∧ c.duration = s.duration_seconds) ∧
    (∀ (seg : Segment) (rest : List Segment) (t : Nat), seg.text = [] →
      add_text_overlay (seg :: rest) t =
        add_text_overlay rest (t + seg.duration_seconds)) := by
  refine ⟨fun segs => add_text_overlay_pairwise segs 0, ?_, ?_, ?_⟩
  · intro segs c hc
    rcases add_text_overlay_mem segs 0 c hc with ⟨i, s, h1, h2, h3, h4⟩
    exact ⟨i, s, h1, h2, by simpa using h3, h4⟩
  · intro segs i s hs hch
    rcases add_text_overlay_exists segs 0 i s hs hch with ⟨c, hc, h1, h2⟩
    exact ⟨c, hc, by simpa using h1, h2⟩
  · intro seg rest t he
    rw [add_text_overlay]
    rw [if_pos (by simp [he])]

/-- Counterexample to C7 as stated: a caption consisting of one space is a
non-empty caption, yet `add_text_overlay` renders no clip at all for it. -/
theorem C7_counterexample :
    (⟨"q".data, 5, " ".data⟩ : Segment).text ≠ [] ∧
    add_text_overlay [⟨"q".data, 5, " ".data⟩] 0 = [] := by
  exact ⟨by decide, by decide⟩

/-- Witness for the amended C7: the caption "hi there" of the second segment is
rendered starting at 3 (the duration of the first segment) for 4 seconds. -/
theorem C7_witness :
    (([⟨"q".data, 3, []⟩, ⟨"r".data, 4, "hi there".data⟩] : List Segment)[1]? =
      some (⟨"r".data, 4, "hi there".data⟩ : Segment)) ∧
    (∃ ch ∈ ("hi there".data : List Char), ch.isWhitespace = false) ∧
    ∃ c ∈ add_text_overlay [⟨"q".data, 3, []⟩, ⟨"r".data, 4, "hi there".data⟩] 0,
      c.start = prefixDur [⟨"q".data, 3, []⟩, ⟨"r".data, 4, "hi there".data⟩] 1 ∧
      c.duration = 4 :=
  ⟨by decide, by decide,
   C7_amended_overlay_timing.2.2.1 [⟨"q".data, 3, []⟩, ⟨"r".data, 4, "hi there".data⟩] 1
     ⟨"r".data, 4, "hi there".data⟩ (by decide) (by decide)⟩


/-- C4: whenever the text-moderation step reports at least one hard-flag
category, the combined report's verdict is "rejected" and its safe field is
false, regardless of the vision-based result (which is universally
quantified here, so in particular it may carry verdict "approved"). -/
theorem C4_hard_flag_override (result : SafetyResult) (moderation : ModerationResult)
    (h : moderation.hard_flags ≠ []) :
    (safety_check_merge result moderation).verdict = "rejected" ∧
    (safety_check_merge result moderation).safe = false := by
  have hne : moderation.hard_flags.isEmpty = false := by
    simpa [List.isEmpty_eq_false] using h
  simp [safety_check_merge, hne]

/-- Witness for C4: a vision verdict of "approved" is overridden by a single
hard flag. -/
theorem C4_witness :
    (["sexual"] : List String) ≠ [] ∧
    (safety_check_merge ⟨true, "approved", []⟩ ⟨true, ["sexual"]⟩).verdict = "rejected" ∧
    (safety_check_merge ⟨true, "approved", []⟩ ⟨true, ["sexual"]⟩).safe = false :=
  ⟨by simp,
   (C4_hard_flag_override ⟨true, "approved", []⟩ ⟨true, ["sexual"]⟩ (by simp)).1,
   (C4_hard_flag_override ⟨true, "approved", []⟩ ⟨true, ["sexual"]⟩ (by simp)).2⟩

/-- C9: resource-insufficiency conditions fail fast.  In per-segment mode,
`director` errors whenever fewer clips are found than segments, naming both
counts and telling the caller to run Scout; `polish` raises a terminal error
naming the missing draft whenever the draft artifact does not exist. -/
theorem C9_resource_errors :
    (∀ (segments : List Segment) (clips : List ℚ) (target : Option ℚ),
      clips.length < segments.length →
      director segments clips false target =
        Except.error ("Not enough clips: found " ++ toString clips.length ++
          ", need " ++ toString segments.length ++
          ". Run Scout first: python -m src.scout <script>")) ∧
    (∀ draft_path : String,
      polish_check false draft_path =
        Except.error ("Draft video not found: " ++ draft_path)) := by
  constructor
  · intro segments clips target h
    simp [director, h]
  · intro draft_path
    rfl

/-- Witness for C9: zero clips against two segments, and a missing draft. -/
theorem C9_witness :
    ([] : List ℚ).length < ([⟨"a".data, 5, []⟩, ⟨"b".data, 5, []⟩] : List Segment).length ∧
    director [⟨"a".data, 5, []⟩, ⟨"b".data, 5, []⟩] [] false none =
      Except.error "Not enough clips: found 0, need 2. Run Scout first: python -m src.scout <script>" ∧
    polish_check false "output/demo_draft.mp4" =
      Except.error "Draft video not found: output/demo_draft.mp4" :=
  ⟨by decide,
   by rw [C9_resource_errors.1 [⟨"a".data, 5, []⟩, ⟨"b".data, 5, []⟩] [] none (by decide)]; rfl,
   by rw [C9_resource_errors.2 "output/demo_draft.mp4"]; rfl⟩

/-- C10: when `iterate` is called with `max_iterations ≤ 0`, the
polish-and-rate loop body never executes (count 0) and the returned rating is
the initial `None`, not a report. -/
theorem C10_nonpositive_budget (max_iterations : ℤ) (h : max_iterations ≤ 0)
    (min_score : ℤ) (reports : Nat → Rating) :
    iterate max_iterations min_score reports = (0, none) := by
  unfold iterate
  rw [Int.toNat_of_nonpos h]
  rfl

/-- Witness for C10 at `max_iterations = -2`. -/
theorem C10_witness :
    (-2 : ℤ) ≤ 0 ∧
    iterate (-2) 8 (fun _ => ⟨10, true, []⟩) = (0, none) :=
  ⟨by decide, C10_nonpositive_budget (-2) (by decide) 8 (fun _ => ⟨10, true, []⟩)⟩

/-- The central single-clip computation: for a positive target and a clip of
positive native duration, trimming, whole-copy tiling and the final
`subclipped(0, total_duration)` yield exactly the target duration. -/
theorem single_clip_duration_eq (target native : ℚ) (ht : 0 < target) (hn : 0 < native) :
    single_clip_duration target native = target := by
  simp only [single_clip_duration, single_clip_tiles]
  by_cases hlt : min target native < target
  · have hdpos : 0 < min target native := lt_min ht hn
    rw [if_pos hlt]
    have hfl : target / min target native < (⌊target / min target native⌋ + 1 : ℚ) := by
      exact_mod_cast Int.lt_floor_add_one (target / min target native)
    rw [div_lt_iff₀ hdpos] at hfl
    apply min_eq_left
    push_cast
    exact le_of_lt hfl
  · rw [if_neg hlt]
    have heq : min target native = target := le_antisymm (min_le_left _ _) (not_lt.mp hlt)
    rw [heq]
    norm_num

/-- C1: in single-clip mode, for every positive target duration and every clip
of positive native duration, the output timeline's duration equals the target
exactly; and a 12s asset against a 30s target is tiled into 3 copies. -/
theorem C1_single_clip_exact :
    (∀ (segments : List Segment) (target native : ℚ) (rest : List ℚ),
      0 < target → 0 < native →
      director segments (native :: rest) true (some target) = Except.ok [target]) ∧
    single_clip_tiles 30 12 = 3 := by
  constructor
  · intro segments target native rest ht hn
    simp [director, single_clip_duration_eq target native ht hn]
  · norm_num [single_clip_tiles]

/-- Witness for C1: the 12s-asset/30s-target scenario. -/
theorem C1_witness :
    (0 : ℚ) < 30 ∧ (0 : ℚ) < 12 ∧
    director [] [12] true (some 30) = Except.ok [30] :=
  ⟨by norm_num, by norm_num,
   C1_single_clip_exact.1 [] 30 12 [] (by norm_num) (by norm_num)⟩

/-- `getElem?` distributes over `zipWith`. -/
theorem getElem?_zipWith {α β γ : Type} (f : α → β → γ) :
    ∀ (l1 : List α) (l2 : List β) (i : Nat) (a : α) (b : β),
      l1[i]? = some a → l2[i]? = some b → (List.zipWith f l1 l2)[i]? = some (f a b) := by
  intro l1
  induction l1 with
  | nil => intro l2 i a b h; simp at h
  | cons x xs ih =>
    intro l2 i a b h1 h2
    cases l2 with
    | nil => simp at h2
    | cons y ys =>
      cases i with
      | zero =>
        simp only [List.getElem?_cons_zero, Option.some_inj] at h1 h2
        simp [List.zipWith_cons_cons, h1, h2]
      | succ n =>
        simp only [List.getElem?_cons_succ] at h1 h2
        simpa [List.zipWith_cons_cons] using ih ys n a b h1 h2

/-- `getElem?` ignores `take` below the cut. -/
theorem take_getElem? {α : Type} :
    ∀ (l : List α) (n i : Nat), i < n → (l.take n)[i]? = l[i]? := by
  intro l
  induction l with
  | nil => intro n i _; simp
  | cons x xs ih =>
    intro n i hin
    cases n with
    | zero => omega
    | succ m =>
      cases i with
      | zero => simp
      | succ j => simpa using ih m j (by omega)

/-- The reconciled slices sum to at most the nominal script duration. -/
theorem zipWith_min_sum_le :
    ∀ (segments : List Segment) (clips : List ℚ),
      (List.zipWith (fun s a => min ((s.duration_seconds : ℚ)) a) segments clips).sum ≤
        (segments.map (fun s => (s.duration_seconds : ℚ))).sum := by
  intro segments
  induction segments with
  | nil => intro clips; simp
  | cons s ss ih =>
    intro clips
    cases clips with
    | nil =>
      simp only [List.zipWith_nil_right, List.sum_nil, List.map_cons, List.sum_cons]
      apply add_nonneg (by positivity)
      apply List.sum_nonneg
      intro x hx
      rcases List.mem_map.mp hx with ⟨s2, _, rfl⟩
      positivity
    | cons a cl =>
      simp only [List.zipWith_cons_cons, List.map_cons, List.sum_cons]
      exact add_le_add (min_le_left _ _) (ih cl)

/-- C2: in per-segment mode, each reconciled slice duration equals
`min(segment.duration_seconds, clip native duration)` (clips are trimmed,
never stretched), and the assembled draft's total duration is the sum of
these minima, which is at most the sum of the segments' nominal durations. -/
theorem C2_per_segment_durations (segments : List Segment) (clips : List ℚ)
    (h : segments.length ≤ clips.length) :
    ∃ slices : List ℚ,
      director segments clips false none = Except.ok slices ∧
      slices.length = segments.length ∧
      (∀ (i : Nat) (s : Segment) (a : ℚ), segments[i]? = some s → clips[i]? = some a →
        slices[i]? = some (min ((s.duration_seconds : ℚ)) a)) ∧
      slices.sum ≤ (segments.map (fun s => (s.duration_seconds : ℚ))).sum := by
  refine ⟨List.zipWith (fun s a => min ((s.duration_seconds : ℚ)) a) segments
    (clips.take segments.length), ?_, ?_, ?_, ?_⟩
  · simp [director, Nat.not_lt.mpr h]
  · simp only [List.length_zipWith, List.length_take]
    omega
  · intro i s a h1 h2
    have hi : i < segments.length := by
      by_contra hge
      push_neg at hge
      rw [List.getElem?_eq_none hge] at h1
      simp at h1
    exact getElem?_zipWith _ segments _ i s a h1
      (by rw [take_getElem? clips _ i hi]; exact h2)
  · exact zipWith_min_sum_le segments _

/-- Witness for C2: segments of 5s and 7s against clips of 3s and 10s. -/
theorem C2_witness :
    ([⟨"a".data, 5, []⟩, ⟨"b".data, 7, []⟩] : List Segment).length ≤
      ([3, 10] : List ℚ).length ∧
    ∃ slices : List ℚ,
      director [⟨"a".data, 5, []⟩, ⟨"b".data, 7, []⟩] [3, 10] false none =
        Except.ok slices ∧
      slices.length = ([⟨"a".data, 5, []⟩, ⟨"b".data, 7, []⟩] : List Segment).length ∧
      (∀ (i : Nat) (s : Segment) (a : ℚ),
        ([⟨"a".data, 5, []⟩, ⟨"b".data, 7, []⟩] : List Segment)[i]? = some s →
        ([3, 10] : List ℚ)[i]? = some a →
        slices[i]? = some (min ((s.duration_seconds : ℚ)) a)) ∧
      slices.sum ≤ (([⟨"a".data, 5, []⟩, ⟨"b".data, 7, []⟩] : List Segment).map
        (fun s => (s.duration_seconds : ℚ))).sum :=
  ⟨by decide, C2_per_segment_durations _ _ (by decide)⟩

/-- The loop body runs at most `fuel` more times. -/
theorem iterateAux_count_le (ms : ℤ) (f : Nat → Rating) :
    ∀ (fuel i : Nat) (last : Option Rating),
      (iterateAux ms f i fuel last).1 ≤ i + fuel := by
  intro fuel
  induction fuel with
  | zero => intro i last; simp [iterateAux]
  | succ n ih =>
    intro i last
    rw [iterateAux]
    by_cases h : ratingSuccess ms (f i) = true
    · simp only [h, if_true]
      omega
    · simp only [Bool.not_eq_true] at h
      simp only [h, Bool.false_eq_true, if_false]
      have := ih (i + 1) (some (f i))
      omega

/-- The loop stops at the first successful report and returns exactly it. -/
theorem iterateAux_first_success (ms : ℤ) (f : Nat → Rating) :
    ∀ (fuel i : Nat) (last : Option Rating) (k : Nat),
      k < fuel →
      (∀ j, j < k → ratingSuccess ms (f (i + j)) = false) →
      ratingSuccess ms (f (i + k)) = true →
      iterateAux ms f i fuel last = (i + k + 1, some (f (i + k))) := by
  intro fuel
  induction fuel with
  | zero => intro i last k hk _ _; omega
  | succ n ih =>
    intro i last k hk hfail hsucc
    rw [iterateAux]
    cases k with
    | zero =>
      simp only [Nat.add_zero] at hsucc
      simp [hsucc]
    | succ m =>
      have h0 : ratingSuccess ms (f i) = false := by
        simpa using hfail 0 (by omega)
      simp only [h0, Bool.false_eq_true, if_false]
      have hfail2 : ∀ j, j < m → ratingSuccess ms (f (i + 1 + j)) = false := by
        intro j hj
        have := hfail (j + 1) (by omega)
        rwa [show i + (j + 1) = i + 1 + j by omega] at this
      have hsucc2 : ratingSuccess ms (f (i + 1 + m)) = true := by
        rwa [show i + (m + 1) = i + 1 + m by omega] at hsucc
      rw [ih (i + 1) (some (f i)) m (by omega) hfail2 hsucc2]
      rw [show i + 1 + m = i + (m + 1) by omega]

/-- When every report fails, the loop exhausts its budget and returns the last
report produced. -/
theorem iterateAux_all_fail (ms : ℤ) (f : Nat → Rating) :
    ∀ (fuel i : Nat) (last : Option Rating),
      0 < fuel →
      (∀ j, j < fuel → ratingSuccess ms (f (i + j)) = false) →
      iterateAux ms f i fuel last = (i + fuel, some (f (i + fuel - 1))) := by
  intro fuel
  induction fuel with
  | zero => intro i last h _; omega
  | succ n ih =>
    intro i last _ hfail
    have h0 : ratingSuccess ms (f i) = false := by
      simpa using hfail 0 (by omega)
    rw [iterateAux]
    simp only [h0, Bool.false_eq_true, if_false]
    cases n with
    | zero => simp [iterateAux]
    | succ m =>
      have hfail2 : ∀ j, j < m + 1 → ratingSuccess ms (f (i + 1 + j)) = false := by
        intro j hj
        have := hfail (j + 1) (by omega)
        rwa [show i + (j + 1) = i + 1 + j by omega] at this
      rw [ih (i + 1) (some (f i)) (by omega) hfail2]
      rw [show i + 1 + (m + 1) = i + (m + 1 + 1) by omega]

/-- C3: `iterate` runs its polish-then-rate body at most `max_iterations`
times; it stops on the first report satisfying the success condition
(`ratingSuccess`: overall_score at or above min_score, pass true, issues
empty) and returns exactly that report; if every attempt fails, it runs
exactly `max_iterations` times and returns the last report, not an
aggregate. -/
theorem C3_iteration_loop (n : Nat) (min_score : ℤ) (reports : Nat → Rating) :
    (iterate (n : ℤ) min_score reports).1 ≤ n ∧
    (∀ k : Nat, k < n → (∀ j, j < k → ratingSuccess min_score (reports j) = false) →
      ratingSuccess min_score (reports k) = true →
      iterate (n : ℤ) min_score reports = (k + 1, some (reports k))) ∧
    ((∀ j, j < n → ratingSuccess min_score (reports j) = false) → 0 < n →
      iterate (n : ℤ) min_score reports = (n, some (reports (n - 1)))) := by
  unfold iterate
  rw [Int.toNat_natCast]
  refine ⟨?_, ?_, ?_⟩
  · simpa using iterateAux_count_le min_score reports n 0 none
  · intro k hk hfail hsucc
    have := iterateAux_first_success min_score reports n 0 none k hk
      (by simpa using hfail) (by simpa using hsucc)
    simpa using this
  · intro hfail hpos
    have := iterateAux_all_fail min_score reports n 0 none hpos (by simpa using hfail)
    simpa using this

/-- Witness for C3: `max_iterations = 3` with every report failing runs the
body exactly 3 times and returns the 3rd (last) report. -/
theorem C3_witness :
    (∀ j : Nat, j < 3 → ratingSuccess 8 ((fun _ => (⟨6, false, []⟩ : Rating)) j) = false) ∧
    0 < 3 ∧
    iterate (3 : ℤ) 8 (fun _ => (⟨6, false, []⟩ : Rating)) = (3, some ⟨6, false, []⟩) :=
  ⟨by decide, by decide, by
    have h := (C3_iteration_loop 3 8 (fun _ => (⟨6, false, []⟩ : Rating))).2.2 (by decide) (by decide)
    simpa using h⟩

/-- C6: the DURATION handler takes the first integer in the field's text
("5", "5 seconds", "5s" all parse to 5); a missing or integer-free field
yields the default 5; the parser is a total function, so no malformed field
can raise. -/
theorem C6_duration_parsing :
    (∀ raw : List Char, durationFromField raw = (firstInt raw).getD 5) ∧
    durationFromField "5".data = 5 ∧
    durationFromField "5 seconds".data = 5 ∧
    durationFromField "5s".data = 5 ∧
    parse_script "SEGMENT: skyline" = [⟨"skyline".data, 5, []⟩] ∧
    parse_script "SEGMENT: skyline\nDURATION: soon" = [⟨"skyline".data, 5, []⟩] := by
  refine ⟨?_, by decide, by decide, by decide, by decide, by decide⟩
  intro raw
  cases h : firstInt raw <;> simp [durationFromField, h]

end VideoReel
